import Mathlib

/-!
Shallow embedding of `chainer/functions/array/resize_images.py`.

Arrays of the Python code are modelled as total functions from indices to
rationals; float arithmetic is idealised as exact rational arithmetic.  A
float expression that is not a finite real number (for example the NaN
produced by the division `0.0 / 0.0`) is modelled by `Option.none`.
Shapes are carried as explicit natural-number parameters.
-/

/-- A 4-dimensional dense array (batch, channel, row, column) of float32
values, modelled as a total function into the rationals. -/
abbrev Img : Type := ℕ → ℕ → ℕ → ℕ → ℚ

/-- The two sampling modes accepted by `resize_images`. -/
inductive Mode
| bilinear
| nearest
deriving DecidableEq

/-- Element types, enough to express the float32 test made by
`check_type_forward`. -/
inductive Dtype
| float32
| float64
| int32
deriving DecidableEq

/-- The while loop of `_infer_lines`: starting from `lines`, keep doubling
while the doubled value still fits in `target`.  `fuel` bounds the number of
iterations; every caller passes enough fuel for the loop to run to
completion (the value doubles at each step, so `target + 1` steps always
suffice when starting from 1). -/
def growLines : ℕ → ℕ → ℕ → ℕ
| 0, lines, _ => lines
| fuel + 1, lines, target =>
    if lines * 2 ≤ target then growLines fuel (lines * 2) target else lines

/-- The divisor `B * C * (H * W // out_H + kH * kW * out_W)` computed by
`_infer_lines` (the working-set size of one panel line). -/
def lineSize (B C H W outH outW kH kW : ℕ) : ℕ :=
  B * C * (H * W / outH + kH * kW * outW)

/-- `_infer_lines` from the source: the number of output rows processed per
panel.  `target_size = 2 ** 17`; if `target_lines < out_H` the result is the
value of the doubling loop, otherwise `out_H` itself. -/
def _infer_lines (B C H W outH outW kH kW : ℕ) : ℕ :=
  if 2 ^ 17 / lineSize B C H W outH outW kH kW < outH then
    growLines (2 ^ 17 / lineSize B C H W outH outW kH kW + 1) 1
      (2 ^ 17 / lineSize B C H W outH outW kH kW)
  else outH

/-- Python integer division, which raises `ZeroDivisionError` on a zero
divisor; the error is modelled by `none`. -/
def pydiv (a b : ℕ) : Option ℕ := if b = 0 then none else some (a / b)

/-- `_infer_lines` with Python's division-by-zero behaviour made explicit:
`none` exactly when one of the two integer divisions in the source would
raise `ZeroDivisionError` (namely `H * W // out_H` with `out_H = 0`, or
`target_size // line_size` with a zero line size). -/
def inferLinesChecked (B C H W outH outW kH kW : ℕ) : Option ℕ :=
  match pydiv (H * W) outH with
  | none => none
  | some hw =>
    match pydiv (2 ^ 17) (B * C * (hw + kH * kW * outW)) with
    | none => none
    | some target =>
      some (if target < outH then growLines (target + 1) 1 target else outH)

/-- Per-axis source coordinate of `compute_indices_and_weights`, as an exact
rational value (`n` is the input extent, `outn` the output extent, `i` the
output index along the axis). -/
def coordQ (mode : Mode) (align : Bool) (n outn i : ℕ) : ℚ :=
  match mode, align with
  | .bilinear, true => (i : ℚ) * ((n : ℚ) - 1) / ((outn : ℚ) - 1)
  | .bilinear, false => max (((i : ℚ) + 1/2) * (n : ℚ) / (outn : ℚ) - 1/2) 0
  | .nearest, _ =>
      min ((⌊(i : ℚ) * (n : ℚ) / (outn : ℚ)⌋ : ℤ) : ℚ) ((n : ℚ) - 1)

/-- Per-axis source coordinate as the float code computes it: `none` models
a non-finite float.  The align-corners branch divides by `out_n - 1`, which
for `out_n = 1` is the float division `0.0 / 0.0 = NaN` (the source has no
guard); the other branches divide by `out_n` and are only reached by the
callers with `out_n ≥ 1`. -/
def coordF (mode : Mode) (align : Bool) (n outn i : ℕ) : Option ℚ :=
  match mode, align with
  | .bilinear, true =>
      if outn = 1 then none else some (coordQ .bilinear true n outn i)
  | .bilinear, false =>
      if outn = 0 then none else some (coordQ .bilinear false n outn i)
  | .nearest, _ =>
      if outn = 0 then none else some (coordQ .nearest align n outn i)

/-- Integer base index along one axis: the integral part produced by
`modf` followed by `astype(intp)` (for the nonnegative coordinates reached
under the callers' validity conditions this is the floor). -/
def baseIdx (mode : Mode) (align : Bool) (n outn i : ℕ) : ℕ :=
  (⌊coordQ mode align n outn i⌋).toNat

/-- Integer base index as the float code computes it, with non-finite
coordinates made explicit: `none` models the garbage produced by
`astype(intp)` on a NaN coordinate (the cast yields a platform-dependent
huge value and the subsequent fancy indexing fails); on a finite
coordinate it is the `modf`/`astype` floor, as in `baseIdx`. -/
def baseIdxF (mode : Mode) (align : Bool) (n outn i : ℕ) : Option ℕ :=
  (coordF mode align n outn i).map fun c => (⌊c⌋).toNat

/-- Fractional interpolation weight along one axis: the fractional part
produced by `modf` for bilinear mode, and `zeros_like` for nearest mode. -/
def fracW (mode : Mode) (align : Bool) (n outn i : ℕ) : ℚ :=
  match mode with
  | .nearest => 0
  | .bilinear =>
      coordQ mode align n outn i - ((⌊coordQ mode align n outn i⌋ : ℤ) : ℚ)

/-- Clamped successor index `min(v0 + 1, n - 1)`, as computed by
`numpy.add` followed by `numpy.minimum` in both engines. -/
def clampSucc (n v0 : ℕ) : ℕ := min (v0 + 1) (n - 1)

/-- The `vcol` / `ucol` arrays of both engines: plane 0 holds the base
index, plane 1 holds the clamped successor. -/
def colF (n : ℕ) (v : ℕ → ℕ → ℕ) (a r c : ℕ) : ℕ :=
  if a = 0 then v r c else clampSucc n (v r c)

/-- The `wcol` array of both engines, as left by the in-place updates
`wcol[0,1] = uw`, `wcol[0,0] = 1 - uw`, `wcol[1] = wcol[0] * vw`,
`wcol[0] -= wcol[1]`. -/
def wcolF (vw uw : ℕ → ℕ → ℚ) (a e r c : ℕ) : ℚ :=
  let w0 := if e = 0 then 1 - uw r c else uw r c
  if a = 0 then w0 - w0 * vw r c else w0 * vw r c

/-- One output element of the per-panel `einsum('ijk,jk->ik', panel,
weights)`: `istart` is the first output row of the panel and `k` the
flattened (row-in-panel, column) index, decoded as `k / outW` and
`k % outW` exactly as the reshapes to `(B*C, 4, l*out_W)` and
`(4, l*out_W)` flatten it; the corner index `j < 4` decodes to the planes
`(j / 2, j % 2)` of `vcol`/`ucol` and `wcol`. -/
def panelEntry (H W outW : ℕ) (x : Img) (v u : ℕ → ℕ → ℕ)
    (vw uw : ℕ → ℕ → ℚ) (istart b c k : ℕ) : ℚ :=
  ∑ j ∈ Finset.range 4,
    x b c (colF H v (j / 2) (istart + k / outW) (k % outW))
          (colF W u (j % 2) (istart + k / outW) (k % outW))
    * wcolF vw uw (j / 2) (j % 2) (istart + k / outW) (k % outW)

/-- Writing one panel of `l` consecutive output rows starting at `istart`
into the output buffer `y`. -/
def writePanel (H W outW : ℕ) (x : Img) (v u : ℕ → ℕ → ℕ)
    (vw uw : ℕ → ℕ → ℚ) (istart l : ℕ) (y : Img) : Img :=
  fun b c p q =>
    if istart ≤ p ∧ p < istart + l then
      panelEntry H W outW x v u vw uw istart b c ((p - istart) * outW + q)
    else y b c p q

/-- The panel start rows visited by `for i in range(0, out_H, lines)`.
`fuel` bounds the number of iterations; the engine passes `outH`, which is
sufficient for any positive step. -/
def panelStarts (lines : ℕ) : ℕ → ℕ → ℕ → List ℕ
| 0, _, _ => []
| fuel + 1, i, outH =>
    if i < outH then i :: panelStarts lines fuel (i + lines) outH else []

/-- `interpolate_bilinear_cpu` from the source: panel-blocked forward
bilinear interpolation.  The output buffer starts from `numpy.empty`; the
unwritten junk is modelled as 0 (every output row below `outH` is written
by exactly one panel). -/
def interpolate_bilinear_cpu (B C H W outH outW : ℕ) (x : Img)
    (v u : ℕ → ℕ → ℕ) (vw uw : ℕ → ℕ → ℚ) : Img :=
  (panelStarts (_infer_lines B C H W outH outW 2 2) outH 0 outH).foldl
    (fun y i =>
      writePanel H W outW x v u vw uw i
        (min (_infer_lines B C H W outH outW 2 2) (outH - i)) y)
    (fun _ _ _ _ => 0)

/-- Direct per-pixel bilinear formula, written from the specification's
words: `w00*X[v0,u0] + w01*X[v0,u1] + w10*X[v1,u0] + w11*X[v1,u1]` with
`w00 = (1-uw)(1-vw)`, `w01 = uw(1-vw)`, `w10 = (1-uw)vw`, `w11 = uw*vw`,
`v1 = min(v0+1, H-1)` and `u1 = min(u0+1, W-1)`. -/
def directBilinear (H W : ℕ) (x : Img) (v u : ℕ → ℕ → ℕ)
    (vw uw : ℕ → ℕ → ℚ) (b c i j : ℕ) : ℚ :=
  (1 - uw i j) * (1 - vw i j) * x b c (v i j) (u i j)
  + uw i j * (1 - vw i j) * x b c (v i j) (clampSucc W (u i j))
  + (1 - uw i j) * vw i j * x b c (clampSucc H (v i j)) (u i j)
  + uw i j * vw i j * x b c (clampSucc H (v i j)) (clampSucc W (u i j))

/-- `interpolate_grad_bilinear_cpu` from the source: the value of output
cell `(b, c, p, q)` is the `bincount` accumulation over every flattened
contribution whose scatter index `offset(bc) + vcol*W + ucol` equals the
cell's flat index `(b*C + c)*(H*W) + p*W + q`, with weight
`wcol[a,e] * gy[bc]` (the reshape of `gy` to `(B*C, out_H, out_W)` reads
slice `bc` as `gy[bc / C][bc % C]`). -/
def interpolate_grad_bilinear_cpu (B C H W outH outW : ℕ) (gy : Img)
    (v u : ℕ → ℕ → ℕ) (vw uw : ℕ → ℕ → ℚ) : Img :=
  fun b c p q =>
    ∑ bc ∈ Finset.range (B * C), ∑ i ∈ Finset.range outH,
      ∑ j ∈ Finset.range outW, ∑ a ∈ Finset.range 2, ∑ e ∈ Finset.range 2,
        if bc * (H * W) + (colF H v a i j * W + colF W u e i j)
            = (b * C + c) * (H * W) + (p * W + q) then
          wcolF vw uw a e i j * gy (bc / C) (bc % C) i j
        else 0

/-- `ResizeImages.forward` on the CPU path: compute the per-axis indices
and weights, broadcast them to the output grid, and run the panel
engine. -/
def ResizeImages_forward (mode : Mode) (align : Bool)
    (B C H W outH outW : ℕ) (x : Img) : Img :=
  interpolate_bilinear_cpu B C H W outH outW x
    (fun i _ => baseIdx mode align H outH i)
    (fun _ j => baseIdx mode align W outW j)
    (fun i _ => fracW mode align H outH i)
    (fun _ j => fracW mode align W outW j)

/-- `ResizeImagesGrad.forward` on the CPU path: recompute the same
indices and weights from the stored parameters and run the scatter
engine. -/
def ResizeImagesGrad_forward (mode : Mode) (align : Bool)
    (B C H W outH outW : ℕ) (gy : Img) : Img :=
  interpolate_grad_bilinear_cpu B C H W outH outW gy
    (fun i _ => baseIdx mode align H outH i)
    (fun _ j => baseIdx mode align W outW j)
    (fun i _ => fracW mode align H outH i)
    (fun _ j => fracW mode align W outW j)

/-- Decidable test that every per-axis coordinate the forward pass will
compute along an axis is a finite float. -/
def coordsDefined (mode : Mode) (align : Bool) (n outn : ℕ) : Bool :=
  (List.range outn).all fun i => (coordF mode align n outn i).isSome

/-- `ResizeImages.forward` with the float computation's non-finite values
made explicit: when some coordinate is NaN the call does not return the
interpolated image (the NaN turns into a garbage index under
`astype(intp)` and the gather fails), modelled as `none`. -/
def ResizeImages_forward_checked (mode : Mode) (align : Bool)
    (B C H W outH outW : ℕ) (x : Img) : Option Img :=
  if coordsDefined mode align H outH && coordsDefined mode align W outW then
    some (ResizeImages_forward mode align B C H W outH outW x)
  else none

/-- `ResizeImagesGrad.forward` with the float computation's non-finite
values made explicit, exactly as for the forward node: the gradient pass
recomputes the same per-axis coordinates from the stored parameters, so
it produces NaN in the same configurations. -/
def ResizeImagesGrad_forward_checked (mode : Mode) (align : Bool)
    (B C H W outH outW : ℕ) (gy : Img) : Option Img :=
  if coordsDefined mode align H outH && coordsDefined mode align W outW then
    some (ResizeImagesGrad_forward mode align B C H W outH outW gy)
  else none

/-- `ResizeImages.check_type_forward`: the input must be float32 and
4-dimensional; nothing else is checked. -/
def ResizeImages_check_type_forward (dtype : Dtype) (ndim : ℕ) : Bool :=
  decide (dtype = Dtype.float32) && decide (ndim = 4)

/-- `ResizeImagesGrad.check_type_forward`: the gradient must be float32
and 4-dimensional; nothing else is checked. -/
def ResizeImagesGrad_check_type_forward (dtype : Dtype) (ndim : ℕ) : Bool :=
  decide (dtype = Dtype.float32) && decide (ndim = 4)

/-- `ResizeImages.__init__`: the only validation at construction time is
the assertion that the mode is bilinear or nearest; the output shape is
stored unchecked (Python integers, so possibly non-positive). -/
def ResizeImages_init_ok (outH outW : ℤ) (mode : Mode) : Bool :=
  decide (mode = Mode.bilinear ∨ mode = Mode.nearest)

/-- Everything the operator validates before any computation begins:
the `__init__` assertion plus `check_type_forward`.  Modelled from the
spec: the framework's `FunctionNode.apply` (not part of this repository's
sources) runs `check_type_forward` before `forward`. -/
def resizePrevalidation (outH outW : ℤ) (mode : Mode) (dtype : Dtype)
    (ndim : ℕ) : Bool :=
  ResizeImages_init_ok outH outW mode
    && ResizeImages_check_type_forward dtype ndim

/-- The forward operator node as invoked through the framework.  Modelled
from the spec: `FunctionNode.apply` (external to this repository) calls
`check_type_forward` before `forward`, so a validation failure yields no
output. -/
def ResizeImages_apply (mode : Mode) (align : Bool) (dtype : Dtype)
    (ndim B C H W outH outW : ℕ) (x : Img) : Option Img :=
  if ResizeImages_check_type_forward dtype ndim then
    some (ResizeImages_forward mode align B C H W outH outW x)
  else none

/-- The gradient operator node as invoked through the framework.  Modelled
from the spec: `FunctionNode.apply` (external to this repository) calls
`check_type_forward` before `forward`, so a validation failure yields no
output. -/
def ResizeImagesGrad_apply (mode : Mode) (align : Bool) (dtype : Dtype)
    (ndim B C H W outH outW : ℕ) (gy : Img) : Option Img :=
  if ResizeImagesGrad_check_type_forward dtype ndim then
    some (ResizeImagesGrad_forward mode align B C H W outH outW gy)
  else none

/-- Inner product of two arrays over a common shape `(B, C, R, S)`. -/
def innerProd (B C R S : ℕ) (f g : Img) : ℚ :=
  ∑ b ∈ Finset.range B, ∑ c ∈ Finset.range C,
    ∑ i ∈ Finset.range R, ∑ j ∈ Finset.range S, f b c i j * g b c i j

/-- The concrete scenario input of the spec: shape (1,1,2,2) with values
[[1,2],[3,4]]. -/
def demoX : Img := fun _ _ p q => 2 * (p : ℚ) + q + 1

/-- The concrete scenario output: `resize(demoX, (4,4))`, bilinear,
AlignCorners. -/
def demoY : Img := ResizeImages_forward .bilinear true 1 1 2 2 4 4 demoX

/-! ### Helper lemmas about the panel-size heuristic -/

lemma growLines_ge (fuel : ℕ) : ∀ lines target : ℕ, lines ≤ growLines fuel lines target := by
  induction fuel with
  | zero => intro lines target; simp [growLines]
  | succ fuel ih =>
      intro lines target
      simp only [growLines]
      split
      · exact le_trans (by omega) (ih (lines * 2) target)
      · exact le_rfl

lemma growLines_le_pow_log (fuel : ℕ) :
    ∀ k target : ℕ, 2 ^ k ≤ target →
      growLines fuel (2 ^ k) target ≤ 2 ^ Nat.log 2 target := by
  induction fuel with
  | zero =>
      intro k target h
      have hpos : 0 < 2 ^ k := Nat.pos_pow_of_pos k (by norm_num)
      have hk : k ≤ Nat.log 2 target :=
        (Nat.pow_le_iff_le_log (by norm_num) (by omega)).mp h
      simpa [growLines] using Nat.pow_le_pow_right (show 1 ≤ 2 by norm_num) hk
  | succ fuel ih =>
      intro k target h
      have hpos : 0 < 2 ^ k := Nat.pos_pow_of_pos k (by norm_num)
      simp only [growLines]
      split
      · have h2 : 2 ^ (k + 1) ≤ target := by
          have : 2 ^ (k + 1) = 2 ^ k * 2 := by ring
          omega
        have := ih (k + 1) target h2
        have hrw : 2 ^ (k + 1) = 2 ^ k * 2 := by ring
        rw [hrw] at this
        exact this
      · exact Nat.pow_le_pow_right (by norm_num)
          ((Nat.pow_le_iff_le_log (by norm_num) (by omega)).mp h)

lemma infer_lines_pos (B C H W outH outW kH kW : ℕ) (h : 1 ≤ outH) :
    1 ≤ _infer_lines B C H W outH outW kH kW := by
  unfold _infer_lines
  split
  · exact growLines_ge _ 1 _
  · exact h

lemma panelStarts_length (lines : ℕ) (hl : 1 ≤ lines) :
    ∀ fuel i outH : ℕ, outH - i ≤ fuel →
      (panelStarts lines fuel i outH).length = (outH - i + lines - 1) / lines := by
  intro fuel
  induction fuel with
  | zero =>
      intro i outH h
      have h0 : outH - i = 0 := by omega
      simp only [panelStarts, List.length_nil, h0]
      exact (Nat.div_eq_of_lt (by omega)).symm
  | succ fuel ih =>
      intro i outH h
      simp only [panelStarts]
      split
      · rename_i hio
        rw [List.length_cons, ih (i + lines) outH (by omega)]
        by_cases hc : outH - i ≤ lines
        · have e1 : outH - (i + lines) = 0 := by omega
          rw [e1]
          rw [Nat.div_eq_of_lt (by omega)]
          exact (Nat.div_eq_of_lt_le (by omega) (by omega)).symm
        · have e1 : outH - (i + lines) + lines - 1 = (outH - i - 1 - lines) + lines := by omega
          have e2 : outH - i + lines - 1 = (outH - i - 1 - lines) + lines + lines := by omega
          rw [e1, e2, Nat.add_div_right _ (by omega), Nat.add_div_right _ (by omega),
            Nat.add_div_right _ (by omega)]
      · rename_i hio
        have h0 : outH - i = 0 := by omega
        simp only [List.length_nil, h0]
        exact (Nat.div_eq_of_lt (by omega)).symm

/-! ### The panel engine agrees with the direct per-pixel formula -/

lemma panelEntry_flat (H W outW : ℕ) (x : Img) (v u : ℕ → ℕ → ℕ)
    (vw uw : ℕ → ℕ → ℚ) (i b c p q : ℕ) (hq : q < outW) (hip : i ≤ p) :
    panelEntry H W outW x v u vw uw i b c ((p - i) * outW + q)
      = directBilinear H W x v u vw uw b c p q := by
  have houtW : 0 < outW := by omega
  have hdiv : ((p - i) * outW + q) / outW = p - i := by
    rw [mul_comm, Nat.mul_add_div houtW, Nat.div_eq_of_lt hq]
    omega
  have hmod : ((p - i) * outW + q) % outW = q := by
    rw [mul_comm, Nat.mul_add_mod, Nat.mod_eq_of_lt hq]
  unfold panelEntry
  rw [hdiv, hmod, show i + (p - i) = p from by omega]
  rw [Finset.sum_range_succ, Finset.sum_range_succ, Finset.sum_range_succ,
    Finset.sum_range_succ, Finset.sum_range_zero]
  norm_num [colF, wcolF, directBilinear]
  ring

lemma panel_foldl (H W outH outW : ℕ) (x : Img) (v u : ℕ → ℕ → ℕ)
    (vw uw : ℕ → ℕ → ℚ) (lines : ℕ) (hl : 1 ≤ lines) :
    ∀ (fuel i : ℕ) (y : Img), outH ≤ i + fuel * lines →
      ∀ b c p q : ℕ, q < outW →
        ((panelStarts lines fuel i outH).foldl
            (fun y0 s =>
              writePanel H W outW x v u vw uw s (min lines (outH - s)) y0) y)
            b c p q
          = if i ≤ p ∧ p < outH then directBilinear H W x v u vw uw b c p q
            else y b c p q := by
  intro fuel
  induction fuel with
  | zero =>
      intro i y hfuel b c p q hq
      simp only [panelStarts, List.foldl_nil]
      rw [if_neg (by omega)]
  | succ fuel ih =>
      intro i y hfuel b c p q hq
      simp only [panelStarts]
      by_cases hio : i < outH
      · rw [if_pos hio, List.foldl_cons]
        have e : (fuel + 1) * lines = fuel * lines + lines := by ring
        rw [ih (i + lines) _ (by omega) b c p q hq]
        by_cases hp1 : i + lines ≤ p ∧ p < outH
        · rw [if_pos hp1, if_pos (And.intro (by omega) hp1.2)]
        · rw [if_neg hp1]
          unfold writePanel
          by_cases hp2 : i ≤ p ∧ p < outH
          · have hplt : p < i + lines := by
              rcases hp2 with ⟨h2a, h2b⟩
              by_contra hcon
              exact hp1 ⟨by omega, h2b⟩
            have hcond : i ≤ p ∧ p < i + min lines (outH - i) := by
              refine ⟨hp2.1, ?_⟩
              rcases min_choice lines (outH - i) with hmin | hmin <;> omega
            rw [if_pos hcond, if_pos hp2]
            exact panelEntry_flat H W outW x v u vw uw i b c p q hq hp2.1
          · rw [if_neg ?_, if_neg hp2]
            rintro ⟨ha, hb⟩
            rcases min_choice lines (outH - i) with hmin | hmin <;>
              exact hp2 ⟨ha, by omega⟩
      · rw [if_neg hio]
        simp only [List.foldl_nil]
        rw [if_neg (by omega)]

lemma interp_eq_direct (B C H W outH outW : ℕ) (x : Img) (v u : ℕ → ℕ → ℕ)
    (vw uw : ℕ → ℕ → ℚ) (hoH : 1 ≤ outH) (b c p q : ℕ)
    (hp : p < outH) (hq : q < outW) :
    interpolate_bilinear_cpu B C H W outH outW x v u vw uw b c p q
      = directBilinear H W x v u vw uw b c p q := by
  have hl := infer_lines_pos B C H W outH outW 2 2 hoH
  have h := panel_foldl H W outH outW x v u vw uw
    (_infer_lines B C H W outH outW 2 2) hl outH 0 (fun _ _ _ _ => 0)
    (by
      have := Nat.le_mul_of_pos_right outH
        (show 0 < _infer_lines B C H W outH outW 2 2 from hl)
      omega) b c p q hq
  unfold interpolate_bilinear_cpu
  rw [h, if_pos (And.intro (Nat.zero_le p) hp)]

lemma direct_as_sum (H W : ℕ) (x : Img) (v u : ℕ → ℕ → ℕ)
    (vw uw : ℕ → ℕ → ℚ) (b c i j : ℕ) :
    directBilinear H W x v u vw uw b c i j
      = ∑ a ∈ Finset.range 2, ∑ e ∈ Finset.range 2,
          wcolF vw uw a e i j * x b c (colF H v a i j) (colF W u e i j) := by
  rw [Finset.sum_range_succ, Finset.sum_range_succ, Finset.sum_range_zero]
  norm_num [colF, wcolF, directBilinear, Finset.sum_range_succ]
  ring

/-- C8: the panel-blocked CPU forward engine produces, at every output
location inside the output shape, exactly the direct per-pixel bilinear
value `w00*X[v0,u0] + w01*X[v0,u1] + w10*X[v1,u0] + w11*X[v1,u1]` with
weights `(1-uw)(1-vw)`, `uw(1-vw)`, `(1-uw)vw`, `uw*vw`; the panel
decomposition chosen by `_infer_lines` has no effect on the result. -/
theorem panel_engine_eq_direct_formula (B C H W outH outW : ℕ) (x : Img)
    (v u : ℕ → ℕ → ℕ) (vw uw : ℕ → ℕ → ℚ) (hoH : 1 ≤ outH)
    (b c p q : ℕ) (hp : p < outH) (hq : q < outW) :
    interpolate_bilinear_cpu B C H W outH outW x v u vw uw b c p q
      = directBilinear H W x v u vw uw b c p q :=
  interp_eq_direct B C H W outH outW x v u vw uw hoH b c p q hp hq

/-- Witness for C8 at a concrete input and panel configuration. -/
theorem panel_engine_eq_direct_formula_witness :
    interpolate_bilinear_cpu 1 1 2 2 3 3 (fun _ _ p q => (p : ℚ) + 2 * q)
      (fun _ _ => 0) (fun _ _ => 1) (fun _ _ => 1/2) (fun _ _ => 1/3) 0 0 1 2
      = directBilinear 2 2 (fun _ _ p q => (p : ℚ) + 2 * q)
        (fun _ _ => 0) (fun _ _ => 1) (fun _ _ => 1/2) (fun _ _ => 1/3) 0 0 1 2 :=
  panel_engine_eq_direct_formula 1 1 2 2 3 3 _ _ _ _ _ (by norm_num) 0 0 1 2
    (by norm_num) (by norm_num)

/-- C10: for all positive dimensions, `_infer_lines` never divides by zero
(its divisor is strictly positive), returns a value between 1 and
`max outH P` where `P` is the largest power of two not exceeding
`2^17 / line_size`, and the panel loop `for i in range(0, out_H, lines)`
performs exactly `ceil(outH / lines)` iterations. -/
theorem infer_lines_bounds_and_iterations (B C H W outH outW : ℕ)
    (hB : 1 ≤ B) (hC : 1 ≤ C) (hH : 1 ≤ H) (hW : 1 ≤ W)
    (hoH : 1 ≤ outH) (hoW : 1 ≤ outW) :
    0 < lineSize B C H W outH outW 2 2
    ∧ 1 ≤ _infer_lines B C H W outH outW 2 2
    ∧ _infer_lines B C H W outH outW 2 2
        ≤ max outH (2 ^ Nat.log 2 (2 ^ 17 / lineSize B C H W outH outW 2 2))
    ∧ (panelStarts (_infer_lines B C H W outH outW 2 2) outH 0 outH).length
        = (outH + _infer_lines B C H W outH outW 2 2 - 1)
            / _infer_lines B C H W outH outW 2 2 := by
  have hls : 0 < lineSize B C H W outH outW 2 2 := by
    unfold lineSize
    have h4 : 0 < 2 * 2 * outW := by omega
    exact Nat.mul_pos (Nat.mul_pos hB hC) (Nat.add_pos_right _ h4)
  have hpos : 1 ≤ _infer_lines B C H W outH outW 2 2 :=
    infer_lines_pos B C H W outH outW 2 2 hoH
  refine ⟨hls, hpos, ?_, ?_⟩
  · unfold _infer_lines
    split
    · rename_i htl
      by_cases h0 : 2 ^ 17 / lineSize B C H W outH outW 2 2 = 0
      · rw [h0]
        refine le_trans ?_ (le_max_left _ _)
        have hg : growLines (0 + 1) 1 0 = 1 := by simp [growLines]
        rw [hg]
        exact hoH
      · refine le_trans ?_ (le_max_right _ _)
        have h1 : 2 ^ 0 ≤ 2 ^ 17 / lineSize B C H W outH outW 2 2 := by
          simpa using Nat.pos_of_ne_zero h0
        have := growLines_le_pow_log (2 ^ 17 / lineSize B C H W outH outW 2 2 + 1)
          0 (2 ^ 17 / lineSize B C H W outH outW 2 2) h1
        simpa using this
    · exact le_max_left _ _
  · have := panelStarts_length (_infer_lines B C H W outH outW 2 2) hpos
      outH 0 outH (by omega)
    simpa using this

/-- Witness for C10 at concrete positive dimensions. -/
theorem infer_lines_bounds_and_iterations_witness :
    0 < lineSize 1 1 4 4 2 2 2 2
    ∧ 1 ≤ _infer_lines 1 1 4 4 2 2 2 2
    ∧ _infer_lines 1 1 4 4 2 2 2 2
        ≤ max 2 (2 ^ Nat.log 2 (2 ^ 17 / lineSize 1 1 4 4 2 2 2 2))
    ∧ (panelStarts (_infer_lines 1 1 4 4 2 2 2 2) 2 0 2).length
        = (2 + _infer_lines 1 1 4 4 2 2 2 2 - 1) / _infer_lines 1 1 4 4 2 2 2 2 :=
  infer_lines_bounds_and_iterations 1 1 4 4 2 2 (by norm_num) (by norm_num)
    (by norm_num) (by norm_num) (by norm_num) (by norm_num)

/-- C3 counterexample: with `out_H = 1` the align-corners coordinate is the
unguarded float division `0 * (H-1) / 0 = NaN` (modelled `none`), not the
value 0 that the claim asserts. -/
theorem align_corners_coord_unguarded_at_one :
    coordF .bilinear true 5 1 0 = none ∧ (none : Option ℚ) ≠ some 0 := by
  constructor
  · rfl
  · simp

/-- C3 (amended): in bilinear mode with AlignCorners the coordinate
generator computes `v[i] = i * (H-1) / (outH-1)` whenever `outH > 1`;
for `outH = 1` there is no guard and the computation yields NaN. -/
theorem align_corners_coord_formula (n outn i : ℕ) (h : 2 ≤ outn) :
    coordF .bilinear true n outn i
      = some ((i : ℚ) * ((n : ℚ) - 1) / ((outn : ℚ) - 1)) := by
  have hne : outn ≠ 1 := by omega
  simp [coordF, coordQ, hne]

/-- Witness for the amended C3 at `n = 5`, `outn = 4`, `i = 2`. -/
theorem align_corners_coord_formula_witness :
    coordF .bilinear true 5 4 2
      = some ((2 : ℚ) * ((5 : ℚ) - 1) / ((4 : ℚ) - 1)) :=
  align_corners_coord_formula 5 4 2 (by norm_num)

/-- C4 counterexample: a call with output height `-3 < 1` passes every
check performed before computation begins (only the mode assertion and
the dtype/rank expectations exist); no InvalidOutputSize error is
raised. -/
theorem prevalidation_accepts_nonpositive_size :
    resizePrevalidation (-3) 5 Mode.bilinear Dtype.float32 4 = true
    ∧ (-3 : ℤ) < 1 := by
  constructor
  · rfl
  · norm_num

/-- C4 (amended): no output-size validation exists.  The pre-computation
checks are entirely independent of the requested output size, and a
non-positive output dimension instead surfaces later as a
division-by-zero failure inside the computation (here: `out_H = 0` makes
`H * W // out_H` in `_infer_lines` raise `ZeroDivisionError`). -/
theorem prevalidation_ignores_output_size :
    (∀ (outH outW outH2 outW2 : ℤ) (mode : Mode) (d : Dtype) (n : ℕ),
        resizePrevalidation outH outW mode d n
          = resizePrevalidation outH2 outW2 mode d n)
    ∧ inferLinesChecked 1 1 4 4 0 5 2 2 = none := by
  constructor
  · intro outH outW outH2 outW2 mode d n
    rfl
  · rfl

/-- C5: inputs that are not rank-4 or not float32 are rejected by the
validators of both operator nodes, and (with the framework ordering
modelled from the spec) the call produces no output. -/
theorem check_type_rejects_bad_rank_dtype (mode : Mode) (align : Bool)
    (dtype : Dtype) (ndim B C H W outH outW : ℕ) (x gy : Img)
    (h : dtype ≠ Dtype.float32 ∨ ndim ≠ 4) :
    ResizeImages_check_type_forward dtype ndim = false
    ∧ ResizeImagesGrad_check_type_forward dtype ndim = false
    ∧ ResizeImages_apply mode align dtype ndim B C H W outH outW x = none
    ∧ ResizeImagesGrad_apply mode align dtype ndim B C H W outH outW gy = none := by
  have h1 : ResizeImages_check_type_forward dtype ndim = false := by
    unfold ResizeImages_check_type_forward
    rcases h with h | h <;> simp [h]
  have h2 : ResizeImagesGrad_check_type_forward dtype ndim = false := by
    unfold ResizeImagesGrad_check_type_forward
    rcases h with h | h <;> simp [h]
  refine ⟨h1, h2, ?_, ?_⟩
  · unfold ResizeImages_apply
    rw [h1]
    simp
  · unfold ResizeImagesGrad_apply
    rw [h2]
    simp

/-- Witness for C5: an int32 input of rank 4 is rejected. -/
theorem check_type_rejects_bad_rank_dtype_witness :
    (Dtype.int32 ≠ Dtype.float32 ∨ (4 : ℕ) ≠ 4)
    ∧ ResizeImages_check_type_forward Dtype.int32 4 = false :=
  ⟨Or.inl (by simp), (check_type_rejects_bad_rank_dtype Mode.bilinear true
    Dtype.int32 4 1 1 1 1 1 1 (fun _ _ _ _ => 0) (fun _ _ _ _ => 0)
    (Or.inl (by simp))).1⟩

/-! ### Bounds and values of the generated coordinates -/

lemma baseIdx_lt (mode : Mode) (align : Bool) (n outn i : ℕ) (hn : 1 ≤ n)
    (hi : i < outn) (hAC : mode = Mode.bilinear → align = true → 2 ≤ outn) :
    baseIdx mode align n outn i < n := by
  have key : coordQ mode align n outn i < (n : ℚ) := by
    cases mode with
    | nearest =>
        simp only [coordQ]
        refine lt_of_le_of_lt (min_le_right _ _) ?_
        have h1 : (1 : ℚ) ≤ (n : ℚ) := by exact_mod_cast hn
        linarith
    | bilinear =>
        cases align with
        | true =>
            have ho2 : 2 ≤ outn := hAC rfl rfl
            simp only [coordQ]
            have hd : (0 : ℚ) < (outn : ℚ) - 1 := by
              have h2 : (2 : ℚ) ≤ (outn : ℚ) := by exact_mod_cast ho2
              linarith
            rw [div_lt_iff₀ hd]
            have hiq : (i : ℚ) ≤ (outn : ℚ) - 1 := by
              have h3 : (i : ℚ) + 1 ≤ (outn : ℚ) := by exact_mod_cast hi
              linarith
            have hn1 : (0 : ℚ) ≤ (n : ℚ) - 1 := by
              have h4 : (1 : ℚ) ≤ (n : ℚ) := by exact_mod_cast hn
              linarith
            nlinarith [mul_le_mul_of_nonneg_right hiq hn1]
        | false =>
            simp only [coordQ]
            have ho1 : 1 ≤ outn := by omega
            have hoq : (0 : ℚ) < (outn : ℚ) := by exact_mod_cast ho1
            have hnq : (1 : ℚ) ≤ (n : ℚ) := by exact_mod_cast hn
            refine max_lt ?_ (by linarith)
            rw [sub_lt_iff_lt_add, div_lt_iff₀ hoq]
            have hiq : (i : ℚ) + 1 ≤ (outn : ℚ) := by exact_mod_cast hi
            nlinarith [mul_le_mul_of_nonneg_right
              (show (i : ℚ) + 1/2 ≤ (outn : ℚ) - 1/2 by linarith)
              (show (0 : ℚ) ≤ (n : ℚ) by linarith)]
  have h2 : ⌊coordQ mode align n outn i⌋ < (n : ℤ) := by
    rw [Int.floor_lt]
    exact_mod_cast key
  unfold baseIdx
  omega

lemma colF_lt (n : ℕ) (v : ℕ → ℕ → ℕ) (a r c : ℕ) (hn : 1 ≤ n)
    (hv : v r c < n) : colF n v a r c < n := by
  unfold colF clampSucc
  split
  · exact hv
  · exact lt_of_le_of_lt (min_le_right _ _) (by omega)

lemma coordQ_align_self (H i : ℕ) (hH : 2 ≤ H) :
    coordQ .bilinear true H H i = (i : ℚ) := by
  simp only [coordQ]
  have hne : ((H : ℚ) - 1) ≠ 0 := by
    have h2 : (2 : ℚ) ≤ (H : ℚ) := by exact_mod_cast hH
    intro hcon
    linarith
  rw [mul_div_assoc, div_self hne, mul_one]

lemma baseIdx_align_self (H i : ℕ) (hH : 2 ≤ H) :
    baseIdx .bilinear true H H i = i := by
  unfold baseIdx
  rw [coordQ_align_self H i hH]
  simp

lemma fracW_align_self (H i : ℕ) (hH : 2 ≤ H) :
    fracW .bilinear true H H i = 0 := by
  simp only [fracW]
  rw [coordQ_align_self H i hH]
  simp

lemma baseIdx_nearest (align : Bool) (n outn i : ℕ) (hn : 1 ≤ n) :
    baseIdx .nearest align n outn i = min (i * n / outn) (n - 1) := by
  unfold baseIdx
  simp only [coordQ]
  have hA : (0 : ℤ) ≤ ⌊(i : ℚ) * (n : ℚ) / (outn : ℚ)⌋ := by
    apply Int.floor_nonneg.mpr
    positivity
  have hAval : (⌊(i : ℚ) * (n : ℚ) / (outn : ℚ)⌋).toNat = i * n / outn := by
    rw [Int.floor_toNat]
    rw [show (i : ℚ) * (n : ℚ) = ((i * n : ℕ) : ℚ) by push_cast; ring]
    rw [Nat.floor_div_nat, Nat.floor_natCast]
  have hcast : ((n : ℚ) - 1) = (((n - 1 : ℕ) : ℤ) : ℚ) := by
    push_cast [hn]
    ring
  rw [hcast, ← Int.cast_min, Int.floor_intCast]
  omega

lemma baseIdxF_eq (mode : Mode) (align : Bool) (n outn i : ℕ)
    (h : coordF mode align n outn i = some (coordQ mode align n outn i)) :
    baseIdxF mode align n outn i = some (baseIdx mode align n outn i) := by
  unfold baseIdxF baseIdx
  rw [h]
  rfl

/-- C7 counterexample: in the bilinear + AlignCorners configuration with
an output extent of 1 (a parameter combination the claim quantifies
over), the coordinate is the unguarded NaN and the base index produced by
`astype(intp)` is not a defined in-range index: for input extent 2 it is
neither 0 nor 1, so the indices gathered and scattered by the engines do
not lie inside `[0, H-1]`. -/
theorem bounds_fail_on_align_corners_unit_output :
    baseIdxF .bilinear true 2 1 0 = none
    ∧ baseIdxF .bilinear true 2 1 0 ≠ some 0
    ∧ baseIdxF .bilinear true 2 1 0 ≠ some 1 := by
  decide

/-- C7 (amended): for every in-range output index along an axis of extent
`n ≥ 1`, in every configuration whose coordinate is defined (all of them
except the align-corners bilinear axis with `outn = 1`, where the NaN
coordinate casts to a garbage out-of-bounds index — see the
counterexample; hence the requirement `outn ≥ 2` there), the base source
index is at most `n - 1`, the clamped neighbour index `min(v0 + 1, n - 1)`
is at most `n - 1`, and at the boundary the clamp yields exactly `n - 1`;
hence no gather or scatter of the engines touches an index outside
`[0, n-1]`. -/
theorem indices_within_bounds (mode : Mode) (align : Bool) (n outn i : ℕ)
    (hn : 1 ≤ n) (hi : i < outn)
    (hAC : mode = Mode.bilinear → align = true → 2 ≤ outn) :
    baseIdx mode align n outn i ≤ n - 1
    ∧ clampSucc n (baseIdx mode align n outn i) ≤ n - 1
    ∧ (baseIdx mode align n outn i = n - 1 →
        clampSucc n (baseIdx mode align n outn i) = n - 1) := by
  have h := baseIdx_lt mode align n outn i hn hi hAC
  refine ⟨by omega, ?_, ?_⟩
  · exact min_le_right _ _
  · intro hb
    unfold clampSucc
    rw [hb]
    exact min_eq_right (by omega)

/-- Witness for C7 on the align-corners axis `n = 3`, `outn = 4`, `i = 2`. -/
theorem indices_within_bounds_witness :
    baseIdx .bilinear true 3 4 2 ≤ 3 - 1
    ∧ clampSucc 3 (baseIdx .bilinear true 3 4 2) ≤ 3 - 1
    ∧ (baseIdx .bilinear true 3 4 2 = 3 - 1 →
        clampSucc 3 (baseIdx .bilinear true 3 4 2) = 3 - 1) :=
  indices_within_bounds .bilinear true 3 4 2 (by norm_num) (by norm_num)
    (fun _ _ => by norm_num)

/-- C2 counterexample: for input shape (1,1,1,1) and output size (1,1)
(equal to the input size), bilinear + AlignCorners, the coordinate
computation is the unguarded division `0 * (H-1) / 0 = NaN`, so the call
does not return the input image, refuting the claim that
`resize(X,(H,W))` equals `X` for every input shape. -/
theorem identity_resize_fails_on_unit_size :
    ResizeImages_forward_checked .bilinear true 1 1 1 1 1 1
      (fun _ _ _ _ => 7) = none := by
  rfl

/-- C2 (amended): for inputs with `H ≥ 2` and `W ≥ 2`,
`resize(X,(H,W))` with bilinear + AlignCorners is defined and returns `X`
exactly (each source pixel maps to itself with weight 1); the claim fails
only for extents of size 1, where the coordinate computation divides by
zero. -/
theorem identity_resize_of_two_le (B C H W : ℕ) (x : Img)
    (hH : 2 ≤ H) (hW : 2 ≤ W) (b c i j : ℕ) (hi : i < H) (hj : j < W) :
    ResizeImages_forward_checked .bilinear true B C H W H W x
      = some (ResizeImages_forward .bilinear true B C H W H W x)
    ∧ ResizeImages_forward .bilinear true B C H W H W x b c i j = x b c i j := by
  have hcd : ∀ m : ℕ, 2 ≤ m → coordsDefined .bilinear true m m = true := by
    intro m hm
    unfold coordsDefined
    rw [List.all_eq_true]
    intro a ha
    simp [coordF, show m ≠ 1 by omega]
  constructor
  · unfold ResizeImages_forward_checked
    rw [hcd H hH, hcd W hW]
    rfl
  · unfold ResizeImages_forward
    rw [interp_eq_direct B C H W H W x _ _ _ _ (by omega) b c i j hi hj]
    simp only [directBilinear]
    simp only [baseIdx_align_self H i hH, baseIdx_align_self W j hW,
      fracW_align_self H i hH, fracW_align_self W j hW]
    ring

/-- Witness for the amended C2 at shape (1,1,2,2). -/
theorem identity_resize_of_two_le_witness :
    ResizeImages_forward_checked .bilinear true 1 1 2 2 2 2
        (fun _ _ p q => 10 * (p : ℚ) + q)
      = some (ResizeImages_forward .bilinear true 1 1 2 2 2 2
        (fun _ _ p q => 10 * (p : ℚ) + q))
    ∧ ResizeImages_forward .bilinear true 1 1 2 2 2 2
        (fun _ _ p q => 10 * (p : ℚ) + q) 0 0 1 1
      = (fun _ _ p q => 10 * (p : ℚ) + q) 0 0 1 1 :=
  identity_resize_of_two_le 1 1 2 2 (fun _ _ p q => 10 * (p : ℚ) + q)
    (by norm_num) (by norm_num) 0 0 1 1 (by norm_num) (by norm_num)

/-- C6: in nearest mode every output pixel equals exactly the single input
pixel at row `min(i*H/outH, H-1)` and column `min(j*W/outW, W-1)`, because
the fractional weights are forced to zero and the blend collapses to the
`(v0, u0)` corner. -/
theorem nearest_mode_selects_single_pixel (align : Bool)
    (B C H W outH outW : ℕ) (x : Img) (hH : 1 ≤ H) (hW : 1 ≤ W)
    (hoH : 1 ≤ outH) (hoW : 1 ≤ outW) (b c i j : ℕ)
    (hi : i < outH) (hj : j < outW) :
    ResizeImages_forward .nearest align B C H W outH outW x b c i j
      = x b c (min (i * H / outH) (H - 1)) (min (j * W / outW) (W - 1))
    ∧ fracW .nearest align H outH i = 0
    ∧ fracW .nearest align W outW j = 0 := by
  have hf : ∀ m om k : ℕ, fracW .nearest align m om k = 0 := by
    intro m om k
    rfl
  refine ⟨?_, hf H outH i, hf W outW j⟩
  unfold ResizeImages_forward
  rw [interp_eq_direct B C H W outH outW x _ _ _ _ hoH b c i j hi hj]
  simp only [directBilinear, hf, baseIdx_nearest align H outH i hH,
    baseIdx_nearest align W outW j hW]
  ring

/-- Witness for C6 at shape (1,1,3,3) resized to (2,2), index (1,1). -/
theorem nearest_mode_selects_single_pixel_witness :
    ResizeImages_forward .nearest true 1 1 3 3 2 2
        (fun _ _ p q => 10 * (p : ℚ) + q) 0 0 1 1
      = (fun _ _ p q => 10 * (p : ℚ) + q) 0 0 ((min (1 * 3 / 2) (3 - 1) : ℕ))
          ((min (1 * 3 / 2) (3 - 1) : ℕ))
    ∧ fracW .nearest true 3 2 1 = 0 ∧ fracW .nearest true 3 2 1 = 0 :=
  nearest_mode_selects_single_pixel true 1 1 3 3 2 2
    (fun _ _ p q => 10 * (p : ℚ) + q) (by norm_num) (by norm_num)
    (by norm_num) (by norm_num) 0 0 1 1 (by norm_num) (by norm_num)

/-- C9: the concrete scenario.  `resize([[1,2],[3,4]], (4,4))` with
bilinear + AlignCorners has corner pixels 1, 2, 3, 4 and interior pixels
equal to the bilinear blends of the coordinates `i/3` between the two
source rows and columns. -/
theorem resize_2x2_to_4x4_concrete :
    demoY 0 0 0 0 = 1 ∧ demoY 0 0 0 3 = 2
    ∧ demoY 0 0 3 0 = 3 ∧ demoY 0 0 3 3 = 4
    ∧ demoY 0 0 0 1 = 4/3 ∧ demoY 0 0 0 2 = 5/3
    ∧ demoY 0 0 1 0 = 5/3 ∧ demoY 0 0 1 1 = 2
    ∧ demoY 0 0 1 2 = 7/3 ∧ demoY 0 0 1 3 = 8/3
    ∧ demoY 0 0 2 0 = 7/3 ∧ demoY 0 0 2 1 = 8/3
    ∧ demoY 0 0 2 2 = 3 ∧ demoY 0 0 2 3 = 10/3
    ∧ demoY 0 0 3 1 = 10/3 ∧ demoY 0 0 3 2 = 11/3 := by
  have he : ∀ p q : ℕ, p < 4 → q < 4 →
      demoY 0 0 p q
        = directBilinear 2 2 demoX
            (fun i _ => baseIdx .bilinear true 2 4 i)
            (fun _ j => baseIdx .bilinear true 2 4 j)
            (fun i _ => fracW .bilinear true 2 4 i)
            (fun _ j => fracW .bilinear true 2 4 j) 0 0 p q := by
    intro p q hp hq
    unfold demoY ResizeImages_forward
    exact interp_eq_direct 1 1 2 2 4 4 demoX _ _ _ _ (by norm_num) 0 0 p q hp hq
  refine ⟨?_, ?_, ?_, ?_, ?_, ?_, ?_, ?_, ?_, ?_, ?_, ?_, ?_, ?_, ?_, ?_⟩ <;>
    (rw [he _ _ (by norm_num) (by norm_num)]
     norm_num [directBilinear, baseIdx, fracW, coordQ, clampSucc, demoX])

/-! ### The gradient scatter is the exact adjoint of the forward gather -/

lemma flat_eq_iff (M bc T A B2 : ℕ) (hA : A < M) (hB : B2 < M) :
    bc * M + A = T * M + B2 ↔ bc = T ∧ A = B2 := by
  constructor
  · intro h
    have hM : 0 < M := by omega
    have e1 : (bc * M + A) / M = bc := by
      rw [mul_comm, Nat.mul_add_div hM, Nat.div_eq_of_lt hA]
      omega
    have e2 : (T * M + B2) / M = T := by
      rw [mul_comm, Nat.mul_add_div hM, Nat.div_eq_of_lt hB]
      omega
    have hbc : bc = T := by rw [← e1, ← e2, h]
    subst hbc
    exact ⟨rfl, by omega⟩
  · rintro ⟨h1, h2⟩
    rw [h1, h2]

lemma sum_ite_pair (H W vc uc : ℕ) (f : ℕ → ℕ → ℚ) (hvc : vc < H)
    (huc : uc < W) :
    (∑ p ∈ Finset.range H, ∑ q ∈ Finset.range W,
        if vc = p ∧ uc = q then f p q else 0) = f vc uc := by
  have h1 : ∀ p : ℕ,
      (∑ q ∈ Finset.range W, if vc = p ∧ uc = q then f p q else 0)
        = if vc = p then f p uc else 0 := by
    intro p
    by_cases hp : vc = p
    · simp only [hp, true_and]
      rw [Finset.sum_ite_eq (Finset.range W) uc (f p)]
      simp [Finset.mem_range, huc]
    · simp [hp]
  rw [Finset.sum_congr rfl fun p _ => h1 p]
  rw [Finset.sum_ite_eq (Finset.range H) vc fun p => f p uc]
  simp [Finset.mem_range, hvc]

lemma grad_deflatten (B C H W outH outW : ℕ) (gy : Img)
    (v u : ℕ → ℕ → ℕ) (vw uw : ℕ → ℕ → ℚ)
    (hv : ∀ a i j : ℕ, i < outH → j < outW → colF H v a i j < H)
    (hu : ∀ e i j : ℕ, i < outH → j < outW → colF W u e i j < W)
    (b c p q : ℕ) (hb : b < B) (hc : c < C) (hp : p < H) (hq : q < W) :
    interpolate_grad_bilinear_cpu B C H W outH outW gy v u vw uw b c p q
      = ∑ i ∈ Finset.range outH, ∑ j ∈ Finset.range outW,
          ∑ a ∈ Finset.range 2, ∑ e ∈ Finset.range 2,
            if colF H v a i j = p ∧ colF W u e i j = q then
              wcolF vw uw a e i j * gy b c i j
            else 0 := by
  have hC : 0 < C := by omega
  have hT : b * C + c < B * C := by
    have h1 : b * C + c < (b + 1) * C := by
      have h2 : (b + 1) * C = b * C + C := by ring
      omega
    exact lt_of_lt_of_le h1 (Nat.mul_le_mul_right C (by omega))
  have hgy : gy ((b * C + c) / C) ((b * C + c) % C) = gy b c := by
    have e1 : (b * C + c) / C = b := by
      rw [mul_comm, Nat.mul_add_div hC, Nat.div_eq_of_lt hc]
      omega
    have e2 : (b * C + c) % C = c := by
      rw [mul_comm, Nat.mul_add_mod, Nat.mod_eq_of_lt hc]
    rw [e1, e2]
  have key : ∀ bc i j a e : ℕ, i < outH → j < outW →
      (if bc * (H * W) + (colF H v a i j * W + colF W u e i j)
          = (b * C + c) * (H * W) + (p * W + q) then
        wcolF vw uw a e i j * gy (bc / C) (bc % C) i j
      else 0)
      = (if bc = b * C + c then
          (if colF H v a i j = p ∧ colF W u e i j = q then
            wcolF vw uw a e i j * gy b c i j else 0)
        else 0) := by
    intro bc i j a e hi hj
    have hA : colF H v a i j * W + colF W u e i j < H * W := by
      have h1 := hv a i j hi hj
      have h2 := hu e i j hi hj
      have h3 : colF H v a i j * W + colF W u e i j
          < (colF H v a i j + 1) * W := by
        have h4 : (colF H v a i j + 1) * W = colF H v a i j * W + W := by ring
        omega
      exact lt_of_lt_of_le h3 (Nat.mul_le_mul_right W (by omega))
    have hB2 : p * W + q < H * W := by
      have h3 : p * W + q < (p + 1) * W := by
        have h4 : (p + 1) * W = p * W + W := by ring
        omega
      exact lt_of_lt_of_le h3 (Nat.mul_le_mul_right W (by omega))
    have hiff1 := flat_eq_iff (H * W) bc (b * C + c) _ _ hA hB2
    have hiff2 := flat_eq_iff W (colF H v a i j) p _ _ (hu e i j hi hj) hq
    simp only [hiff1, hiff2]
    by_cases hbc : bc = b * C + c
    · subst hbc
      simp [hgy]
    · simp [hbc]
  unfold interpolate_grad_bilinear_cpu
  rw [Finset.sum_congr rfl fun bc _ => Finset.sum_congr rfl fun i hi =>
    Finset.sum_congr rfl fun j hj => Finset.sum_congr rfl fun a _ =>
    Finset.sum_congr rfl fun e _ =>
      key bc i j a e (Finset.mem_range.mp hi) (Finset.mem_range.mp hj)]
  have pull : ∀ bc : ℕ,
      (∑ i ∈ Finset.range outH, ∑ j ∈ Finset.range outW,
        ∑ a ∈ Finset.range 2, ∑ e ∈ Finset.range 2,
          if bc = b * C + c then
            (if colF H v a i j = p ∧ colF W u e i j = q then
              wcolF vw uw a e i j * gy b c i j else 0)
          else 0)
      = if bc = b * C + c then
          (∑ i ∈ Finset.range outH, ∑ j ∈ Finset.range outW,
            ∑ a ∈ Finset.range 2, ∑ e ∈ Finset.range 2,
              if colF H v a i j = p ∧ colF W u e i j = q then
                wcolF vw uw a e i j * gy b c i j else 0)
        else 0 := by
    intro bc
    by_cases hbc : bc = b * C + c
    · simp [hbc]
    · simp [hbc]
  rw [Finset.sum_congr rfl fun bc _ => pull bc]
  rw [Finset.sum_ite_eq' (Finset.range (B * C)) (b * C + c)]
  simp [Finset.mem_range, hT]

lemma swap_head (s t : Finset ℕ) (G : ℕ → ℕ → ℚ) :
    ∑ a ∈ s, ∑ b ∈ t, G a b = ∑ b ∈ t, ∑ a ∈ s, G a b :=
  Finset.sum_comm

lemma slice_adjoint (H W outH outW : ℕ) (x gy : Img)
    (v u : ℕ → ℕ → ℕ) (vw uw : ℕ → ℕ → ℚ) (b c : ℕ)
    (hv : ∀ a i j : ℕ, i < outH → j < outW → colF H v a i j < H)
    (hu : ∀ e i j : ℕ, i < outH → j < outW → colF W u e i j < W) :
    (∑ i ∈ Finset.range outH, ∑ j ∈ Finset.range outW,
        directBilinear H W x v u vw uw b c i j * gy b c i j)
      = ∑ p ∈ Finset.range H, ∑ q ∈ Finset.range W, x b c p q *
          (∑ i ∈ Finset.range outH, ∑ j ∈ Finset.range outW,
            ∑ a ∈ Finset.range 2, ∑ e ∈ Finset.range 2,
              if colF H v a i j = p ∧ colF W u e i j = q then
                wcolF vw uw a e i j * gy b c i j
              else 0) := by
  have lhs_eq : (∑ i ∈ Finset.range outH, ∑ j ∈ Finset.range outW,
      directBilinear H W x v u vw uw b c i j * gy b c i j)
      = ∑ i ∈ Finset.range outH, ∑ j ∈ Finset.range outW,
          ∑ a ∈ Finset.range 2, ∑ e ∈ Finset.range 2,
            wcolF vw uw a e i j * x b c (colF H v a i j) (colF W u e i j)
              * gy b c i j := by
    refine Finset.sum_congr rfl fun i _ => Finset.sum_congr rfl fun j _ => ?_
    rw [direct_as_sum, Finset.sum_mul]
    refine Finset.sum_congr rfl fun a _ => ?_
    rw [Finset.sum_mul]
  have step1 : (∑ p ∈ Finset.range H, ∑ q ∈ Finset.range W, x b c p q *
      (∑ i ∈ Finset.range outH, ∑ j ∈ Finset.range outW,
        ∑ a ∈ Finset.range 2, ∑ e ∈ Finset.range 2,
          if colF H v a i j = p ∧ colF W u e i j = q then
            wcolF vw uw a e i j * gy b c i j
          else 0))
      = ∑ p ∈ Finset.range H, ∑ q ∈ Finset.range W,
          ∑ i ∈ Finset.range outH, ∑ j ∈ Finset.range outW,
            ∑ a ∈ Finset.range 2, ∑ e ∈ Finset.range 2,
              if colF H v a i j = p ∧ colF W u e i j = q then
                x b c p q * (wcolF vw uw a e i j * gy b c i j)
              else 0 := by
    refine Finset.sum_congr rfl fun p _ => Finset.sum_congr rfl fun q _ => ?_
    rw [Finset.mul_sum]
    refine Finset.sum_congr rfl fun i _ => ?_
    rw [Finset.mul_sum]
    refine Finset.sum_congr rfl fun j _ => ?_
    rw [Finset.mul_sum]
    refine Finset.sum_congr rfl fun a _ => ?_
    rw [Finset.mul_sum]
    refine Finset.sum_congr rfl fun e _ => ?_
    rw [mul_ite, mul_zero]
  have step3 : (∑ i ∈ Finset.range outH, ∑ j ∈ Finset.range outW,
      ∑ a ∈ Finset.range 2, ∑ e ∈ Finset.range 2,
        ∑ p ∈ Finset.range H, ∑ q ∈ Finset.range W,
          if colF H v a i j = p ∧ colF W u e i j = q then
            x b c p q * (wcolF vw uw a e i j * gy b c i j)
          else 0)
      = ∑ i ∈ Finset.range outH, ∑ j ∈ Finset.range outW,
          ∑ a ∈ Finset.range 2, ∑ e ∈ Finset.range 2,
            x b c (colF H v a i j) (colF W u e i j)
              * (wcolF vw uw a e i j * gy b c i j) := by
    refine Finset.sum_congr rfl fun i hi => Finset.sum_congr rfl fun j hj =>
      Finset.sum_congr rfl fun a _ => Finset.sum_congr rfl fun e _ => ?_
    exact sum_ite_pair H W _ _
      (fun p q => x b c p q * (wcolF vw uw a e i j * gy b c i j))
      (hv a i j (Finset.mem_range.mp hi) (Finset.mem_range.mp hj))
      (hu e i j (Finset.mem_range.mp hi) (Finset.mem_range.mp hj))
  have st1 := Finset.sum_congr rfl fun p (_ : p ∈ Finset.range H) =>
    swap_head (Finset.range W) (Finset.range outH)
      (fun q i => ∑ j ∈ Finset.range outW, ∑ a ∈ Finset.range 2,
        ∑ e ∈ Finset.range 2,
          if colF H v a i j = p ∧ colF W u e i j = q then
            x b c p q * (wcolF vw uw a e i j * gy b c i j)
          else 0)
  have st2 := Finset.sum_congr rfl fun p (_ : p ∈ Finset.range H) =>
    Finset.sum_congr rfl fun i (_ : i ∈ Finset.range outH) =>
      swap_head (Finset.range W) (Finset.range outW)
        (fun q j => ∑ a ∈ Finset.range 2, ∑ e ∈ Finset.range 2,
          if colF H v a i j = p ∧ colF W u e i j = q then
            x b c p q * (wcolF vw uw a e i j * gy b c i j)
          else 0)
  have st3 := Finset.sum_congr rfl fun p (_ : p ∈ Finset.range H) =>
    Finset.sum_congr rfl fun i (_ : i ∈ Finset.range outH) =>
      Finset.sum_congr rfl fun j (_ : j ∈ Finset.range outW) =>
        swap_head (Finset.range W) (Finset.range 2)
          (fun q a => ∑ e ∈ Finset.range 2,
            if colF H v a i j = p ∧ colF W u e i j = q then
              x b c p q * (wcolF vw uw a e i j * gy b c i j)
            else 0)
  have st4 := Finset.sum_congr rfl fun p (_ : p ∈ Finset.range H) =>
    Finset.sum_congr rfl fun i (_ : i ∈ Finset.range outH) =>
      Finset.sum_congr rfl fun j (_ : j ∈ Finset.range outW) =>
        Finset.sum_congr rfl fun a (_ : a ∈ Finset.range 2) =>
          swap_head (Finset.range W) (Finset.range 2)
            (fun q e =>
              if colF H v a i j = p ∧ colF W u e i j = q then
                x b c p q * (wcolF vw uw a e i j * gy b c i j)
              else 0)
  have st5 := swap_head (Finset.range H) (Finset.range outH)
    (fun p i => ∑ j ∈ Finset.range outW, ∑ a ∈ Finset.range 2,
      ∑ e ∈ Finset.range 2, ∑ q ∈ Finset.range W,
        if colF H v a i j = p ∧ colF W u e i j = q then
          x b c p q * (wcolF vw uw a e i j * gy b c i j)
        else 0)
  have st6 := Finset.sum_congr rfl fun i (_ : i ∈ Finset.range outH) =>
    swap_head (Finset.range H) (Finset.range outW)
      (fun p j => ∑ a ∈ Finset.range 2, ∑ e ∈ Finset.range 2,
        ∑ q ∈ Finset.range W,
          if colF H v a i j = p ∧ colF W u e i j = q then
            x b c p q * (wcolF vw uw a e i j * gy b c i j)
          else 0)
  have st7 := Finset.sum_congr rfl fun i (_ : i ∈ Finset.range outH) =>
    Finset.sum_congr rfl fun j (_ : j ∈ Finset.range outW) =>
      swap_head (Finset.range H) (Finset.range 2)
        (fun p a => ∑ e ∈ Finset.range 2, ∑ q ∈ Finset.range W,
          if colF H v a i j = p ∧ colF W u e i j = q then
            x b c p q * (wcolF vw uw a e i j * gy b c i j)
          else 0)
  have st8 := Finset.sum_congr rfl fun i (_ : i ∈ Finset.range outH) =>
    Finset.sum_congr rfl fun j (_ : j ∈ Finset.range outW) =>
      Finset.sum_congr rfl fun a (_ : a ∈ Finset.range 2) =>
        swap_head (Finset.range H) (Finset.range 2)
          (fun p e => ∑ q ∈ Finset.range W,
            if colF H v a i j = p ∧ colF W u e i j = q then
              x b c p q * (wcolF vw uw a e i j * gy b c i j)
            else 0)
  have final : (∑ i ∈ Finset.range outH, ∑ j ∈ Finset.range outW,
      ∑ a ∈ Finset.range 2, ∑ e ∈ Finset.range 2,
        wcolF vw uw a e i j * x b c (colF H v a i j) (colF W u e i j)
          * gy b c i j)
      = ∑ i ∈ Finset.range outH, ∑ j ∈ Finset.range outW,
          ∑ a ∈ Finset.range 2, ∑ e ∈ Finset.range 2,
            x b c (colF H v a i j) (colF W u e i j)
              * (wcolF vw uw a e i j * gy b c i j) := by
    refine Finset.sum_congr rfl fun i _ => Finset.sum_congr rfl fun j _ =>
      Finset.sum_congr rfl fun a _ => Finset.sum_congr rfl fun e _ => ?_
    ring
  exact lhs_eq.trans (final.trans (step3.symm.trans (st8.symm.trans
    (st7.symm.trans (st6.symm.trans (st5.symm.trans (st4.symm.trans
    (st3.symm.trans (st2.symm.trans (st1.symm.trans step1.symm))))))))))

/-- C1 counterexample: in the bilinear + AlignCorners configuration with
output height 1 (a parameter combination the claim quantifies over), the
per-axis coordinate computation of the forward operator and of the
gradient operator — which recomputes the same coordinates — is the
unguarded division `0 * (H-1) / 0 = NaN`, so both calls fail and the
claimed adjoint inner-product identity does not hold for that
configuration. -/
theorem adjoint_fails_on_align_corners_unit_output :
    ResizeImages_forward_checked .bilinear true 1 1 2 2 1 2
      (fun _ _ _ _ => 1) = none
    ∧ ResizeImagesGrad_forward_checked .bilinear true 1 1 2 2 1 2
      (fun _ _ _ _ => 1) = none :=
  ⟨rfl, rfl⟩

/-- C1 (amended): the adjoint (transpose) law holds in every configuration
whose coordinates are defined.  For every input `X` and output gradient
`gy`, with the same size/mode/alignment parameters on both operators
(sizes positive, and the align-corners bilinear configuration requiring
output extents of at least 2 — for an extent of 1 the unguarded
`0 * (H-1) / 0` NaN makes both calls fail, see the counterexample), the
inner product of `resize(X)` with `gy` equals, exactly over the
rationals, the inner product of `X` with `gradient(gy)`. -/
theorem adjoint_of_gradient_scatter (mode : Mode) (align : Bool)
    (B C H W outH outW : ℕ) (x gy : Img) (hH : 1 ≤ H) (hW : 1 ≤ W)
    (hoH : 1 ≤ outH) (hoW : 1 ≤ outW)
    (hACH : mode = Mode.bilinear → align = true → 2 ≤ outH)
    (hACW : mode = Mode.bilinear → align = true → 2 ≤ outW) :
    innerProd B C outH outW
        (ResizeImages_forward mode align B C H W outH outW x) gy
      = innerProd B C H W x
        (ResizeImagesGrad_forward mode align B C H W outH outW gy) := by
  have hv : ∀ a i j : ℕ, i < outH → j < outW →
      colF H (fun i2 _ => baseIdx mode align H outH i2) a i j < H := by
    intro a i j hi hj
    exact colF_lt H _ a i j hH (baseIdx_lt mode align H outH i hH hi hACH)
  have hu : ∀ e i j : ℕ, i < outH → j < outW →
      colF W (fun _ j2 => baseIdx mode align W outW j2) e i j < W := by
    intro e i j hi hj
    exact colF_lt W _ e i j hW (baseIdx_lt mode align W outW j hW hj hACW)
  unfold innerProd ResizeImages_forward ResizeImagesGrad_forward
  refine Finset.sum_congr rfl fun b hb => Finset.sum_congr rfl fun c hc => ?_
  have hb2 := Finset.mem_range.mp hb
  have hc2 := Finset.mem_range.mp hc
  have lhs1 : (∑ i ∈ Finset.range outH, ∑ j ∈ Finset.range outW,
      interpolate_bilinear_cpu B C H W outH outW x
        (fun i2 _ => baseIdx mode align H outH i2)
        (fun _ j2 => baseIdx mode align W outW j2)
        (fun i2 _ => fracW mode align H outH i2)
        (fun _ j2 => fracW mode align W outW j2) b c i j * gy b c i j)
      = ∑ i ∈ Finset.range outH, ∑ j ∈ Finset.range outW,
          directBilinear H W x
            (fun i2 _ => baseIdx mode align H outH i2)
            (fun _ j2 => baseIdx mode align W outW j2)
            (fun i2 _ => fracW mode align H outH i2)
            (fun _ j2 => fracW mode align W outW j2) b c i j * gy b c i j := by
    refine Finset.sum_congr rfl fun i hi => Finset.sum_congr rfl fun j hj => ?_
    rw [interp_eq_direct B C H W outH outW x _ _ _ _ hoH b c i j
      (Finset.mem_range.mp hi) (Finset.mem_range.mp hj)]
  rw [lhs1, slice_adjoint H W outH outW x gy _ _ _ _ b c hv hu]
  refine Finset.sum_congr rfl fun p hp => Finset.sum_congr rfl fun q hq => ?_
  rw [grad_deflatten B C H W outH outW gy _ _ _ _ hv hu b c p q hb2 hc2
    (Finset.mem_range.mp hp) (Finset.mem_range.mp hq)]

/-- Witness for C1 in nearest mode on shape (1,1,1,1) with output (2,2). -/
theorem adjoint_of_gradient_scatter_witness :
    innerProd 1 1 2 2
        (ResizeImages_forward .nearest true 1 1 1 1 2 2 (fun _ _ _ _ => 3))
        (fun _ _ _ _ => 5)
      = innerProd 1 1 1 1 (fun _ _ _ _ => 3)
        (ResizeImagesGrad_forward .nearest true 1 1 1 1 2 2
          (fun _ _ _ _ => 5)) :=
  adjoint_of_gradient_scatter .nearest true 1 1 1 1 2 2 _ _ (by norm_num)
    (by norm_num) (by norm_num) (by norm_num) (fun _ _ => by norm_num)
    (fun _ _ => by norm_num)
